import Mathlib

/-!
Verification development for the closure-completion language server
(`src/server/src/server.ts`).  The stateful core is the `ImportDB` class:
a forward map `imports : Map<string, ImportInfo>`, a reverse map
`files : Map<string, string[]>` and a lazily rebuilt completion cache.
We embed that state as `DB`, the per-scan line handler as `scanStep`, and
the operations `removeFile`, `scanFile`, `getCompletions` as pure state
transformers.  JavaScript `Map`s are embedded as insertion-ordered
association lists with `aget`/`aset`/`adel`/`avalues` mirroring
`get`/`set`/`delete`/`values`.  I/O effects (logging, the best-effort
workspace cache file write) have no observable effect on the index state
and are not part of the model.
-/

/-- The shape of the records stored in the forward map.  The defining file
`importinfo.ts` is not part of the repository snapshot; the shape is taken
from the object literals built in `server.ts` (`scanFile`) and spec section 3:
`{name, namespace, module, sourcepath}`. -/
structure ImportInfo where
  name : String
  «namespace» : String
  module : Bool
  sourcepath : String
deriving DecidableEq, Repr

/-- `vscode-languageserver`'s `Position` (line/character), as used by
`Position.create(0, 0)`. -/
structure Position where
  line : Nat
  character : Nat
deriving DecidableEq, Repr

/-- A text range: start and end positions. -/
structure Range where
  start : Position
  «end» : Position
deriving DecidableEq, Repr

/-- `vscode-languageserver`'s `TextEdit`: replace `range` with `newText`. -/
structure TextEdit where
  range : Range
  newText : String
deriving DecidableEq, Repr

/-- `TextEdit.insert(pos, text)`: an edit whose range is empty at `pos`. -/
def TextEdit.insert (pos : Position) (text : String) : TextEdit :=
  ⟨⟨pos, pos⟩, text⟩

/-- The two completion-item kinds the server uses. -/
inductive CompletionItemKind where
  | Module : CompletionItemKind
  | Class : CompletionItemKind
deriving DecidableEq, Repr

/-- The fields of `CompletionItem` that `getCompletions` populates. -/
structure CompletionItem where
  label : String
  detail : String
  kind : CompletionItemKind
  additionalTextEdits : List TextEdit
  commitCharacters : List String
deriving DecidableEq, Repr

/-! ### Character-list string primitives

The scanner's string tests (`String.prototype.startsWith`, `indexOf`,
the regex match) are embedded as structural recursions over `String.data`. -/

/-- `isPre p s`: the character list `p` is an initial segment of `s`
(JavaScript `s.startsWith(p)` at the list level). -/
def isPre : List Char → List Char → Bool
  | [], _ => true
  | _ :: _, [] => false
  | a :: as, b :: bs => a == b && isPre as bs

/-- `isSub n h`: the character list `n` occurs contiguously inside `h`
(JavaScript `h.indexOf(n) != -1`). -/
def isSub (needle : List Char) : List Char → Bool
  | [] => needle.isEmpty
  | c :: rest => isPre needle (c :: rest) || isSub needle rest

/-- `strStarts s p`: JavaScript `s.startsWith(p)`. -/
def strStarts (s pre : String) : Bool := isPre pre.data s.data

/-- `strHas h n`: JavaScript `h.indexOf(n) != -1`. -/
def strHas (hay needle : String) : Bool := isSub needle.data hay.data

/-- The single-quote character, written by code point. -/
def squote : Char := Char.ofNat 39

/-- The literal head of the declaration regex `/declare module 'goog:(.+)'/`. -/
def declPfx : List Char := "declare module 'goog:".data

/-- Greedy tail of the regex at a fixed start: `(.+)'` against `tail` captures
the characters before the last single quote of `tail`, provided at least one
character precedes it (`.+` needs one).  `none` when no such quote exists. -/
def capToLastQuote (tail : List Char) : Option (List Char) :=
  match tail.reverse.dropWhile (fun c => c ≠ squote) with
  | [] => none
  | _ :: rest => if rest.isEmpty then none else some rest.reverse

/-- `line.match(/declare module 'goog:(.+)'/)`: try every start position left
to right; at the first position where the literal head matches and a valid
greedy capture exists, return that capture. -/
def declCapture : List Char → Option (List Char)
  | [] => none
  | c :: rest =>
    if isPre declPfx (c :: rest) then
      match capToLastQuote ((c :: rest).drop declPfx.length) with
      | some cap => some cap
      | none => declCapture rest
    else declCapture rest

/-- The captured namespace of a declaration-start line, if the line is one. -/
def declMatch (line : String) : Option String :=
  (declCapture line.data).map (fun l => ⟨l⟩)

/-- `const dot = ns.lastIndexOf('.'); dot == -1 ? ns : ns.substr(dot + 1)`:
the final dot-segment of a namespace (the whole string when it has no dot). -/
def lastSeg (ns : String) : String :=
  ⟨(ns.data.reverse.takeWhile (fun c => c ≠ '.')).reverse⟩

/-- The fixed blacklist `wildcardBlacklists` of `server.ts`. -/
def wildcardBlacklists : List String :=
  ["goog.i18n.CompactNumberFormatSymbols", "goog.i18n.DateTimePatterns",
   "goog.i18n.DateTimeSymbols", "goog.i18n.NumberFormatSymbols",
   "goog.labs.i18n.ListFormat"]

/-- The fixed `deprecated` set of `server.ts` (membership is all that is
used, so a list embeds the `Set`). -/
def deprecated : List String :=
  ["goog.Delay",
   "goog.Throttle",
   "goog.dom.classes",
   "goog.fs.Error.ErrorCode",
   "goog.fx.Animation.EventType",
   "goog.fx.Animation.State",
   "goog.graphics",
   "goog.i18n.currencyCodeMapTier2",
   "goog.i18n.currencyCodeMap",
   "goog.json.EvalJsonProcessor",
   "goog.net.MockIFrameIo",
   "goog.result",
   "goog.structs.Map",
   "goog.structs.Set",
   "goog.testing.AsyncTestCase",
   "goog.testing.ContinuationTestCase",
   "goog.testing.DeferredTestCase",
   "goog.ui.AttachableMenu",
   "goog.ui.Button.Side",
   "goog.ui.ImagelessButtonRenderer",
   "goog.ui.ImagelessMenuButtonRenderer",
   "goog.ui.Menu.EventType",
   "goog.ui.MenuBase",
   "goog.ui.ServerChart",
   "goog.ui.TabPane",
   "goog.vec.ArrayType",
   "goog.History.EventType",
   "goog.History.Event"]

/-! ### Insertion-ordered maps (the JavaScript `Map`) -/

/-- `Map.prototype.get`: the value at the first (unique) matching key. -/
def aget {α : Type} : List (String × α) → String → Option α
  | [], _ => none
  | p :: m, k => if p.1 = k then some p.2 else aget m k

/-- `Map.prototype.set`: update in place when the key is present (keeping its
insertion position), otherwise append at the end. -/
def aset {α : Type} : List (String × α) → String → α → List (String × α)
  | [], k, v => [(k, v)]
  | p :: m, k, v => if p.1 = k then (k, v) :: m else p :: aset m k v

/-- `Map.prototype.delete`: drop the entry with the given key. -/
def adel {α : Type} : List (String × α) → String → List (String × α)
  | [], _ => []
  | p :: m, k => if p.1 = k then adel m k else p :: adel m k

/-- `Array.from(map.values())`: the values in insertion order. -/
def avalues {α : Type} (m : List (String × α)) : List α := m.map (fun p => p.2)

theorem aget_nil {α : Type} (k : String) : aget ([] : List (String × α)) k = none := rfl

theorem aget_del_self {α : Type} (m : List (String × α)) (k : String) :
    aget (adel m k) k = none := by
  induction m with
  | nil => rfl
  | cons p m ih =>
    by_cases h : p.1 = k
    · simpa [adel, h] using ih
    · simpa [adel, aget, h] using ih

theorem aget_del_ne {α : Type} (m : List (String × α)) (k k' : String)
    (h : k' ≠ k) : aget (adel m k) k' = aget m k' := by
  induction m with
  | nil => rfl
  | cons p m ih =>
    by_cases hp : p.1 = k
    · have hkk' : ¬ k = k' := fun hh => h hh.symm
      simpa [adel, aget, hp, hkk'] using ih
    · by_cases hp' : p.1 = k'
      · simp [adel, aget, hp, hp', h]
      · simpa [adel, aget, hp, hp'] using ih

theorem aget_set_self {α : Type} (m : List (String × α)) (k : String) (v : α) :
    aget (aset m k v) k = some v := by
  induction m with
  | nil => simp [aset, aget]
  | cons p m ih =>
    by_cases hp : p.1 = k
    · simp [aset, aget, hp]
    · simpa [aset, aget, hp] using ih

theorem aget_set_ne {α : Type} (m : List (String × α)) (k k' : String) (v : α)
    (h : k' ≠ k) : aget (aset m k v) k' = aget m k' := by
  have hk : ¬ k = k' := fun hh => h hh.symm
  induction m with
  | nil => simp [aset, aget, hk]
  | cons p m ih =>
    by_cases hp : p.1 = k
    · have hpk' : ¬ p.1 = k' := fun hh => h (hh.symm.trans hp)
      simp [aset, aget, hp, hk, hpk']
    · by_cases hp' : p.1 = k'
      · simp [aset, aget, hp, hp', h]
      · simpa [aset, aget, hp, hp'] using ih

/-- Deleting every key of a list: `aget` afterwards is `none` on the listed
keys and unchanged elsewhere. -/
theorem aget_delAll {α : Type} (L : List String) (m : List (String × α))
    (n : String) :
    aget (L.foldl (fun acc k => adel acc k) m) n =
      if n ∈ L then none else aget m n := by
  induction L generalizing m with
  | nil => simp
  | cons a L ih =>
    by_cases hn : n ∈ a :: L
    · rcases List.mem_cons.mp hn with h | h
      · subst h
        by_cases hL : n ∈ L
        · simp [List.foldl_cons, ih, hL]
        · simp [List.foldl_cons, ih, hL, aget_del_self]
      · simp [List.foldl_cons, ih, h, hn]
    · have hna : n ≠ a := fun hh => hn (hh ▸ List.mem_cons_self a L)
      have hnL : n ∉ L := fun hh => hn (List.mem_cons_of_mem a hh)
      simp [List.foldl_cons, ih, hnL, hn, aget_del_ne _ _ _ hna]

/-! ### The file scanner (lines 97–165 of `server.ts`)

The `line` event handler closes over the mutable locals
`namespace`, `name`, `skip`, `found` and over `this.imports`; one handler
invocation is `scanStep`, a whole file's worth of lines is a fold. -/

/-- The scanner's state while streaming one file: the handler's closed-over
locals plus the live forward map. -/
structure ScanSt where
  «namespace» : String
  name : String
  skip : String
  found : List String
  imports : List (String × ImportInfo)
deriving DecidableEq, Repr

/-- One invocation of the `reader.on('line', ...)` handler of `scanFile`. -/
def scanStep (path : String) (st : ScanSt) (line : String) : ScanSt :=
  match declMatch line with
  | some ns =>
    if st.skip ≠ "" && strStarts ns st.skip then
      { st with «namespace» := "" }
    else if wildcardBlacklists.any (fun p => strStarts ns p) then
      { st with «namespace» := "", skip := "" }
    else if deprecated.contains ns then
      { st with «namespace» := "", skip := ns ++ "." }
    else
      { st with «namespace» := ns, name := lastSeg ns, skip := "" }
  | none =>
    if st.«namespace» ≠ "" && strHas line "export = alias" then
      if (aget st.imports st.«namespace»).isSome then st
      else
        { st with
          imports := aset st.imports st.«namespace»
            ⟨st.name, st.«namespace», true, path⟩,
          found := st.found ++ [st.«namespace»] }
    else if st.«namespace» ≠ "" && strHas line "export default alias" then
      if (aget st.imports st.«namespace»).isSome then st
      else
        { st with
          imports := aset st.imports st.«namespace»
            ⟨st.name, st.«namespace», false, path⟩,
          found := st.found ++ [st.«namespace»] }
    else st

/-- Streaming a whole file: fold the line handler over the lines, starting
from the fresh locals `namespace = name = skip = ''`, `found = []` and the
current forward map. -/
def scanSt (path : String) (lines : List String)
    (m : List (String × ImportInfo)) : ScanSt :=
  lines.foldl (scanStep path) ⟨"", "", "", [], m⟩

/-! ### The `ImportDB` state and operations -/

/-- The mutable state of the `ImportDB` class: forward map, reverse map and
the completion cache (`undefined` ↦ `none`).  `workspace` and the logger only
drive I/O and are omitted. -/
structure DB where
  imports : List (String × ImportInfo)
  files : List (String × List String)
  completions : Option (List CompletionItem)
deriving DecidableEq, Repr

/-- A fresh `ImportDB`: empty maps, no cache. -/
def emptyDB : DB := ⟨[], [], none⟩

/-- `ImportDB.removeFile` (lines 63–74): when the path has a reverse-mapping
row, delete every listed namespace from the forward map, delete the row, and
unset the cache; otherwise do nothing at all. -/
def removeFile (path : String) (s : DB) : DB :=
  match aget s.files path with
  | some ns =>
    { imports := ns.foldl (fun acc n => adel acc n) s.imports,
      files := adel s.files path,
      completions := none }
  | none => s

/-- `ImportDB.scanFile` (lines 97–165): remove the path's previous
contribution, stream the lines, and on close — only when at least one
namespace was found — unset the cache and set the reverse-mapping row.
(The forward-map insertions happened live during the line events and are
kept either way; when nothing was found there were none.) -/
def scanFile (path : String) (lines : List String) (s : DB) : DB :=
  let s0 := removeFile path s
  let st := scanSt path lines s0.imports
  if st.found.isEmpty then { s0 with imports := st.imports }
  else
    { imports := st.imports,
      files := aset s0.files path st.found,
      completions := none }

/-- The completion item built for one `ImportInfo` in the loop of
`getCompletions` (lines 175–189). -/
def itemFor (i : ImportInfo) : CompletionItem :=
  { label := i.name,
    detail := "Auto import " ++ i.«namespace»,
    kind := if i.module then CompletionItemKind.Module
      else CompletionItemKind.Class,
    additionalTextEdits :=
      [TextEdit.insert ⟨0, 0⟩
        ("import " ++ (if i.module then "* as " else "") ++ i.name ++
          " from 'goog:" ++ i.«namespace» ++ "';\n")],
    commitCharacters := ["."] }

/-- `ImportDB.getCompletions` (lines 167–192), returning the produced list
together with the updated state.  `prebaked` stands for the constant
`PrebakedClosure` imported from `prebaked.ts`, a file absent from the
repository snapshot; per the spec it is a fixed, built-in fallback list of
`ImportInfo` entries, so the operation is parameterized by it. -/
def getCompletions (prebaked : List ImportInfo) (s : DB) :
    List CompletionItem × DB :=
  match s.completions with
  | some cs => (cs, s)
  | none =>
    let base := avalues s.imports
    let imports :=
      if (aget s.imports "goog.ui.Component").isSome then base
      else base ++ prebaked
    let cs := imports.map itemFor
    (cs, { s with completions := some cs })

/-! ### Operation sequences -/

/-- One index mutation, as driven by the file-watch layer. -/
inductive Op where
  | scan : String → List String → Op
  | remove : String → Op

/-- Apply one operation to the state. -/
def applyOp (s : DB) : Op → DB
  | Op.scan p lines => scanFile p lines s
  | Op.remove p => removeFile p s

/-- Run a sequence of scan/remove operations from the empty index. -/
def run (ops : List Op) : DB := ops.foldl applyOp emptyDB

/-- The reverse-mapping row of a path, the empty list when it has none. -/
def rowOf (s : DB) (p : String) : List String := (aget s.files p).getD []

/-- `ownedBy s p n`: the forward map has an entry for `n` whose recorded
`sourcepath` is `p`. -/
def ownedBy (s : DB) (p n : String) : Prop :=
  ∃ info, aget s.imports n = some info ∧ info.sourcepath = p

/-- The reverse-mapping invariant: every path's row lists exactly the
namespaces of forward-map entries sourced from it. -/
def DBInv (s : DB) : Prop := ∀ p n, n ∈ rowOf s p ↔ ownedBy s p n

/-! ### The scan-fold invariant -/

/-- While a scan of `path` streams lines, relative to the forward map `m` it
started from: entries not yet found are untouched, every found namespace has a
fresh entry sourced from `path`, and found namespaces were absent from `m`. -/
def FoldInv (path : String) (m : List (String × ImportInfo))
    (st : ScanSt) : Prop :=
  (∀ n, n ∉ st.found → aget st.imports n = aget m n) ∧
  (∀ n, n ∈ st.found →
    ∃ info, aget st.imports n = some info ∧ info.sourcepath = path) ∧
  (∀ n, n ∈ st.found → aget m n = none)

theorem foldInv_step (path : String) (m : List (String × ImportInfo))
    (st : ScanSt) (line : String) (h : FoldInv path m st) :
    FoldInv path m (scanStep path st line) := by
  obtain ⟨h1, h2, h3⟩ := h
  cases hd : declMatch line with
  | some ns =>
    simp only [scanStep, hd]
    split_ifs <;> exact ⟨h1, h2, h3⟩
  | none =>
    have hadd : ∀ mo : Bool,
        ¬ (aget st.imports st.«namespace»).isSome = true →
        FoldInv path m
          { st with
            imports := aset st.imports st.«namespace»
              ⟨st.name, st.«namespace», mo, path⟩,
            found := st.found ++ [st.«namespace»] } := by
      intro mo hnone
      have hget : aget st.imports st.«namespace» = none :=
        Option.not_isSome_iff_eq_none.mp hnone
      have hNfresh : st.«namespace» ∉ st.found := by
        intro hmem
        obtain ⟨info, hi, _⟩ := h2 _ hmem
        rw [hi] at hget
        exact Option.noConfusion hget
      refine ⟨?_, ?_, ?_⟩
      · intro n hn
        simp only [List.mem_append, List.mem_singleton] at hn
        push_neg at hn
        obtain ⟨hn1, hn2⟩ := hn
        rw [aget_set_ne _ _ _ _ hn2]
        exact h1 n hn1
      · intro n hn
        simp only [List.mem_append, List.mem_singleton] at hn
        rcases hn with hn | hn
        · have hne : n ≠ st.«namespace» := by
            intro he
            exact hNfresh (he ▸ hn)
          rw [aget_set_ne _ _ _ _ hne]
          exact h2 n hn
        · subst hn
          exact ⟨_, aget_set_self _ _ _, rfl⟩
      · intro n hn
        simp only [List.mem_append, List.mem_singleton] at hn
        rcases hn with hn | hn
        · exact h3 n hn
        · subst hn
          rw [← h1 _ hNfresh]
          exact hget
    simp only [scanStep, hd]
    split_ifs with hc1 he1 hc2 he2
    · exact ⟨h1, h2, h3⟩
    · exact hadd true he1
    · exact ⟨h1, h2, h3⟩
    · exact hadd false he2
    · exact ⟨h1, h2, h3⟩

theorem foldInv_fold (path : String) (m : List (String × ImportInfo))
    (lines : List String) (st : ScanSt) (h : FoldInv path m st) :
    FoldInv path m (lines.foldl (scanStep path) st) := by
  induction lines generalizing st with
  | nil => exact h
  | cons l lines ih => exact ih _ (foldInv_step path m st l h)

theorem foldInv_scanSt (path : String) (m : List (String × ImportInfo))
    (lines : List String) : FoldInv path m (scanSt path lines m) := by
  refine foldInv_fold path m lines _ ⟨fun n _ => rfl, ?_, ?_⟩ <;>
    exact fun n hn => absurd hn (List.not_mem_nil n)

/-! ### Preservation of the reverse-mapping invariant -/

theorem inv_removeFile (p : String) (s : DB) (h : DBInv s) :
    DBInv (removeFile p s) := by
  unfold removeFile
  cases hf : aget s.files p with
  | none => exact h
  | some ns =>
    intro q n
    have hrow : rowOf s p = ns := by simp [rowOf, hf]
    have himp :
        aget (ns.foldl (fun acc k => adel acc k) s.imports) n =
          if n ∈ ns then none else aget s.imports n := aget_delAll ns s.imports n
    by_cases hq : q = p
    · subst hq
      have hlhs : rowOf ⟨ns.foldl (fun acc k => adel acc k) s.imports,
          adel s.files q, none⟩ q = [] := by
        simp [rowOf, aget_del_self]
      rw [hlhs]
      simp only [List.not_mem_nil, false_iff]
      rintro ⟨info, hi, hsp⟩
      by_cases hn : n ∈ ns
      · rw [himp, if_pos hn] at hi
        exact Option.noConfusion hi
      · rw [himp, if_neg hn] at hi
        exact hn (hrow ▸ (h q n).mpr ⟨info, hi, hsp⟩)
    · have hlhs : rowOf ⟨ns.foldl (fun acc k => adel acc k) s.imports,
          adel s.files p, none⟩ q = rowOf s q := by
        simp [rowOf, aget_del_ne _ _ _ hq]
      rw [hlhs]
      by_cases hn : n ∈ ns
      · obtain ⟨info0, hi0, hsp0⟩ := (h p n).mp (hrow ▸ hn)
        constructor
        · intro hmem
          obtain ⟨info1, hi1, hsp1⟩ := (h q n).mp hmem
          rw [hi0] at hi1
          exact absurd (hsp1 ▸ hsp0 ▸ (Option.some.inj hi1) ▸ rfl : q = p) hq
        · rintro ⟨info, hi, hsp⟩
          rw [himp, if_pos hn] at hi
          exact Option.noConfusion hi
      · constructor
        · intro hmem
          obtain ⟨info, hi, hsp⟩ := (h q n).mp hmem
          exact ⟨info, by rw [himp, if_neg hn]; exact hi, hsp⟩
        · rintro ⟨info, hi, hsp⟩
          rw [himp, if_neg hn] at hi
          exact (h q n).mpr ⟨info, hi, hsp⟩

theorem removeFile_files_self (p : String) (s : DB) :
    aget (removeFile p s).files p = none := by
  unfold removeFile
  cases hf : aget s.files p with
  | none => exact hf
  | some ns => exact aget_del_self s.files p

/-- `scanFile` written out: remove, fold the line handler, then either keep
the maps (nothing found) or set the row and unset the cache. -/
theorem scanFile_eq (p : String) (L : List String) (s : DB) :
    scanFile p L s =
      if (scanSt p L (removeFile p s).imports).found.isEmpty then
        DB.mk (scanSt p L (removeFile p s).imports).imports
          (removeFile p s).files (removeFile p s).completions
      else
        DB.mk (scanSt p L (removeFile p s).imports).imports
          (aset (removeFile p s).files p
            (scanSt p L (removeFile p s).imports).found) none := rfl

theorem inv_scanFile (p : String) (L : List String) (s : DB) (h : DBInv s) :
    DBInv (scanFile p L s) := by
  have h0 : DBInv (removeFile p s) := inv_removeFile p s h
  have hrow0 : aget (removeFile p s).files p = none := removeFile_files_self p s
  have hnotowned : ∀ n, ¬ ownedBy (removeFile p s) p n := by
    intro n ho
    have := (h0 p n).mpr ho
    rw [rowOf, hrow0] at this
    exact absurd this (List.not_mem_nil n)
  obtain ⟨F1, F2, F3⟩ := foldInv_scanSt p (removeFile p s).imports L
  rw [scanFile_eq]
  by_cases hfe : (scanSt p L (removeFile p s).imports).found.isEmpty
  · rw [if_pos hfe]
    have hnil : (scanSt p L (removeFile p s).imports).found = [] :=
      List.isEmpty_iff.mp hfe
    intro q n
    have himp : aget (scanSt p L (removeFile p s).imports).imports n =
        aget (removeFile p s).imports n := by
      refine F1 n ?_
      rw [hnil]
      exact List.not_mem_nil n
    have hlhs : rowOf (DB.mk (scanSt p L (removeFile p s).imports).imports
        (removeFile p s).files (removeFile p s).completions) q =
        rowOf (removeFile p s) q := rfl
    rw [hlhs]
    unfold ownedBy
    rw [himp]
    exact h0 q n
  · rw [if_neg hfe]
    intro q n
    by_cases hq : q = p
    · subst hq
      have hlhs : rowOf (DB.mk (scanSt q L (removeFile q s).imports).imports
          (aset (removeFile q s).files q
            (scanSt q L (removeFile q s).imports).found) none) q =
          (scanSt q L (removeFile q s).imports).found := by
        simp [rowOf, aget_set_self]
      rw [hlhs]
      constructor
      · intro hmem
        exact F2 n hmem
      · rintro ⟨info, hi, hsp⟩
        by_cases hn : n ∈ (scanSt q L (removeFile q s).imports).found
        · exact hn
        · rw [F1 n hn] at hi
          exact absurd ⟨info, hi, hsp⟩ (hnotowned n)
    · have hlhs : rowOf (DB.mk (scanSt p L (removeFile p s).imports).imports
          (aset (removeFile p s).files p
            (scanSt p L (removeFile p s).imports).found) none) q =
          rowOf (removeFile p s) q := by
        simp [rowOf, aget_set_ne _ _ _ _ hq]
      rw [hlhs]
      by_cases hn : n ∈ (scanSt p L (removeFile p s).imports).found
      · obtain ⟨info0, hi0, hsp0⟩ := F2 n hn
        constructor
        · intro hmem
          obtain ⟨info1, hi1, hsp1⟩ := (h0 q n).mp hmem
          rw [F3 n hn] at hi1
          exact Option.noConfusion hi1
        · rintro ⟨info, hi, hsp⟩
          rw [hi0] at hi
          exact absurd (hsp ▸ hsp0 ▸ (Option.some.inj hi) ▸ rfl : q = p) hq
      · unfold ownedBy
        rw [F1 n hn]
        exact h0 q n

theorem inv_applyOp (s : DB) (op : Op) (h : DBInv s) : DBInv (applyOp s op) := by
  cases op with
  | scan p lines => exact inv_scanFile p lines s h
  | remove p => exact inv_removeFile p s h

theorem inv_emptyDB : DBInv emptyDB := by
  intro p n
  simp [rowOf, ownedBy, emptyDB, aget]

theorem inv_foldl (ops : List Op) (s : DB) (h : DBInv s) :
    DBInv (ops.foldl applyOp s) := by
  induction ops generalizing s with
  | nil => exact h
  | cons op ops ih => exact ih _ (inv_applyOp s op h)

/-- Every state reachable from the empty index by scan/remove operations
satisfies the reverse-mapping invariant. -/
theorem inv_run (ops : List Op) : DBInv (run ops) :=
  inv_foldl ops emptyDB inv_emptyDB

/-! ### Further operation lemmas -/

theorem removeFile_none (p : String) (s : DB) (h : aget s.files p = none) :
    removeFile p s = s := by
  simp only [removeFile, h]

theorem removeFile_some (p : String) (s : DB) (ns : List String)
    (h : aget s.files p = some ns) :
    removeFile p s = DB.mk (ns.foldl (fun acc k => adel acc k) s.imports)
      (adel s.files p) none := by
  simp only [removeFile, h]

theorem scanFile_imports (p : String) (L : List String) (s : DB) :
    (scanFile p L s).imports =
      (scanSt p L (removeFile p s).imports).imports := by
  rw [scanFile_eq]
  split_ifs <;> rfl

/-- `removeFile p` keeps any forward-map entry not sourced from `p`, given
that `p`'s reverse row only lists `p`-sourced entries. -/
theorem removeFile_preserves (p : String) (s : DB)
    (h : ∀ n info, n ∈ rowOf s p → aget s.imports n = some info →
      info.sourcepath = p)
    (N : String) (info : ImportInfo)
    (hget : aget s.imports N = some info) (hsp : info.sourcepath ≠ p) :
    aget (removeFile p s).imports N = some info := by
  cases hf : aget s.files p with
  | none => rw [removeFile_none p s hf]; exact hget
  | some ns =>
    rw [removeFile_some p s ns hf]
    have hrow : rowOf s p = ns := by simp [rowOf, hf]
    have hnot : N ∉ ns := by
      intro hmem
      exact hsp (h N info (hrow ▸ hmem) hget)
    rw [aget_delAll, if_neg hnot]
    exact hget

/-- The forward map enters a scan only through `aget`; relate two scan states
agreeing on everything except the representation of their forward maps. -/
def StRel (st1 st2 : ScanSt) : Prop :=
  st1.«namespace» = st2.«namespace» ∧ st1.name = st2.name ∧
  st1.skip = st2.skip ∧ st1.found = st2.found ∧
  ∀ n, aget st1.imports n = aget st2.imports n

theorem aget_aset_congr (m1 m2 : List (String × ImportInfo))
    (h : ∀ n, aget m1 n = aget m2 n) (k : String) (v : ImportInfo) :
    ∀ n, aget (aset m1 k v) n = aget (aset m2 k v) n := by
  intro n
  by_cases hn : n = k
  · subst hn
    rw [aget_set_self, aget_set_self]
  · rw [aget_set_ne _ _ _ _ hn, aget_set_ne _ _ _ _ hn]
    exact h n

theorem stRel_step (path line : String) (st1 st2 : ScanSt)
    (h : StRel st1 st2) : StRel (scanStep path st1 line) (scanStep path st2 line) := by
  obtain ⟨a1, b1, c1, d1, e1⟩ := st1
  obtain ⟨a2, b2, c2, d2, e2⟩ := st2
  obtain ⟨ha, hb, hc, hd, he⟩ := h
  simp only at ha hb hc hd
  subst ha hb hc hd
  cases hdm : declMatch line with
  | some ns =>
    simp only [scanStep, hdm]
    split_ifs <;> exact ⟨rfl, rfl, rfl, rfl, he⟩
  | none =>
    simp only [scanStep, hdm]
    have hsome : (aget e1 a1).isSome = (aget e2 a1).isSome := by rw [he a1]
    rw [hsome]
    split_ifs <;>
      first
        | exact ⟨rfl, rfl, rfl, rfl, he⟩
        | exact ⟨rfl, rfl, rfl, rfl, aget_aset_congr e1 e2 he _ _⟩

theorem stRel_fold (path : String) (lines : List String) (st1 st2 : ScanSt)
    (h : StRel st1 st2) :
    StRel (lines.foldl (scanStep path) st1) (lines.foldl (scanStep path) st2) := by
  induction lines generalizing st1 st2 with
  | nil => exact h
  | cons l lines ih => exact ih _ _ (stRel_step path l st1 st2 h)

/-- Scanning the same lines over forward maps with the same lookups finds the
same namespaces. -/
theorem scanSt_found_congr (path : String) (lines : List String)
    (m1 m2 : List (String × ImportInfo))
    (h : ∀ n, aget m1 n = aget m2 n) :
    (scanSt path lines m1).found = (scanSt path lines m2).found := by
  have := stRel_fold path lines ⟨"", "", "", [], m1⟩ ⟨"", "", "", [], m2⟩
    ⟨rfl, rfl, rfl, rfl, h⟩
  exact this.2.2.2.1

/-! ### Claim theorems -/

/-- C1: for every sequence of `scanFile`/`removeFile` operations starting
from the empty index and every file path `p`, the reverse-mapping row for
`p` lists exactly the namespaces whose forward-map entry records
`sourcepath = p` (a path with no row contributes the empty set). -/
theorem c1_reverse_mapping_exact (ops : List Op) (p n : String) :
    n ∈ rowOf (run ops) p ↔
      ∃ info, aget (run ops).imports n = some info ∧ info.sourcepath = p :=
  inv_run ops p n

/-- C9: for every path and state, removing a file twice in a row leaves the
index exactly as removing it once; the second call is a no-op. -/
theorem c9_removeFile_idempotent (p : String) (s : DB) :
    removeFile p (removeFile p s) = removeFile p s := by
  cases hf : aget s.files p with
  | none => rw [removeFile_none p s hf, removeFile_none p s hf]
  | some ns =>
    rw [removeFile_some p s ns hf]
    exact removeFile_none p _ (aget_del_self s.files p)

/-- C3 counterexample: from the empty index, populate the cache with
`getCompletions`, then `removeFile "a"` — the path has no reverse-mapping
row and the cache is NOT invalidated (it stays populated), contradicting
the claim that removal unsets the cache unconditionally. -/
theorem c3_counterexample :
    ¬ (removeFile "a" ((getCompletions [] emptyDB).2)).completions = none := by
  decide

/-- C3 amended: `removeFile p` invalidates the completion cache exactly when
`p` has a reverse-mapping row; when `p` has no row the call is a complete
no-op (the cache, in particular, is untouched). -/
theorem c3_remove_cache_invalidation (p : String) (s : DB) :
    (aget s.files p ≠ none → (removeFile p s).completions = none) ∧
    (aget s.files p = none → removeFile p s = s) := by
  constructor
  · intro h
    cases hf : aget s.files p with
    | none => exact absurd hf h
    | some ns => rw [removeFile_some p s ns hf]
  · exact removeFile_none p s

theorem c3_witness :
    (removeFile "f" (scanFile "f" ["declare module 'goog:goog.dom'",
      "export = alias;"] emptyDB)).completions = none ∧
    removeFile "g" emptyDB = emptyDB :=
  ⟨(c3_remove_cache_invalidation "f"
      (scanFile "f" ["declare module 'goog:goog.dom'", "export = alias;"]
        emptyDB)).1 (by decide),
   (c3_remove_cache_invalidation "g" emptyDB).2 (by decide)⟩

/-- C10: assuming every namespace listed in `p`'s reverse row is sourced
from `p`, `removeFile p` keeps every forward-map entry with a different
sourcepath, keeps every other path's reverse row, and leaves `p` with no
row. -/
theorem c10_removeFile_frame (p : String) (s : DB)
    (h : ∀ n info, n ∈ rowOf s p → aget s.imports n = some info →
      info.sourcepath = p) :
    (∀ n info, aget s.imports n = some info → info.sourcepath ≠ p →
      aget (removeFile p s).imports n = some info) ∧
    (∀ q, q ≠ p → aget (removeFile p s).files q = aget s.files q) ∧
    aget (removeFile p s).files p = none := by
  refine ⟨fun n info hg hs => removeFile_preserves p s h n info hg hs, ?_,
    removeFile_files_self p s⟩
  intro q hq
  cases hf : aget s.files p with
  | none => rw [removeFile_none p s hf]
  | some ns =>
    rw [removeFile_some p s ns hf]
    exact aget_del_ne s.files p q hq

/-- A two-file example state: `"a"` owns `goog.dom`, `"b"` owns
`goog.events`. -/
def dbEx : DB :=
  scanFile "b" ["declare module 'goog:goog.events'", "export default alias;"]
    (scanFile "a" ["declare module 'goog:goog.dom'", "export = alias;"]
      emptyDB)

theorem c10_witness :
    (∀ n info, aget dbEx.imports n = some info → info.sourcepath ≠ "a" →
      aget (removeFile "a" dbEx).imports n = some info) ∧
    (∀ q, q ≠ "a" → aget (removeFile "a" dbEx).files q = aget dbEx.files q) ∧
    aget (removeFile "a" dbEx).files "a" = none := by
  refine c10_removeFile_frame "a" dbEx ?_
  intro n info hn hi
  have hrow : rowOf dbEx "a" = ["goog.dom"] := by decide
  rw [hrow] at hn
  obtain rfl := List.mem_singleton.mp hn
  have hv : aget dbEx.imports "goog.dom" =
      some ⟨"dom", "goog.dom", true, "a"⟩ := by decide
  rw [hv] at hi
  obtain rfl := (Option.some.inj hi).symm
  rfl

/-- C2: first-claim ownership.  Over any reachable state: after scanning
file `A` yields an entry for namespace `N` sourced from `A`, scanning a
different file `B` (which also declares and exports `N`) leaves `A`'s entry
untouched, and subsequently removing `A` deletes the entry for `N`
entirely, with no fallback to `B`'s declaration. -/
theorem c2_first_claim_ownership (ops : List Op) (A B : String)
    (Alns Blns : List String) (N : String) (info : ImportInfo)
    (hAB : A ≠ B)
    (hA : aget (scanFile A Alns (run ops)).imports N = some info)
    (hsp : info.sourcepath = A)
    (hB : N ∈ (scanSt B Blns []).found) :
    aget (scanFile B Blns (scanFile A Alns (run ops))).imports N = some info ∧
    aget (removeFile A
      (scanFile B Blns (scanFile A Alns (run ops)))).imports N = none := by
  have hInv1 : DBInv (scanFile A Alns (run ops)) :=
    inv_scanFile A Alns (run ops) (inv_run ops)
  have hBne : info.sourcepath ≠ B := fun hh => hAB (hsp.symm.trans hh)
  have h1 : aget (removeFile B (scanFile A Alns (run ops))).imports N =
      some info := by
    refine removeFile_preserves B _ ?_ N info hA hBne
    intro n i hn hi
    obtain ⟨i', hi', hsp'⟩ := (hInv1 B n).mp hn
    rw [hi'] at hi
    exact (Option.some.inj hi) ▸ hsp'
  obtain ⟨F1, F2, F3⟩ :=
    foldInv_scanSt B (removeFile B (scanFile A Alns (run ops))).imports Blns
  have h2 : aget (scanFile B Blns (scanFile A Alns (run ops))).imports N =
      some info := by
    rw [scanFile_imports]
    by_cases hn : N ∈
        (scanSt B Blns
          (removeFile B (scanFile A Alns (run ops))).imports).found
    · rw [F3 N hn] at h1
      exact absurd h1 (Option.noConfusion)
    · rw [F1 N hn]
      exact h1
  refine ⟨h2, ?_⟩
  have hInv2 : DBInv (scanFile B Blns (scanFile A Alns (run ops))) :=
    inv_scanFile B Blns _ hInv1
  have hmem : N ∈ rowOf (scanFile B Blns (scanFile A Alns (run ops))) A :=
    (hInv2 A N).mpr ⟨info, h2, hsp⟩
  cases hf : aget (scanFile B Blns (scanFile A Alns (run ops))).files A with
  | none =>
    rw [rowOf, hf] at hmem
    exact absurd hmem (List.not_mem_nil N)
  | some ns =>
    rw [removeFile_some _ _ ns hf, aget_delAll]
    have hmem' : N ∈ ns := by
      rw [rowOf, hf] at hmem
      exact hmem
    rw [if_pos hmem']

theorem c2_witness :
    aget (scanFile "b" ["declare module 'goog:goog.dom'", "export = alias;"]
      (scanFile "a" ["declare module 'goog:goog.dom'", "export = alias;"]
        (run []))).imports "goog.dom" =
      some (ImportInfo.mk "dom" "goog.dom" true "a") ∧
    aget (removeFile "a"
      (scanFile "b" ["declare module 'goog:goog.dom'", "export = alias;"]
        (scanFile "a" ["declare module 'goog:goog.dom'", "export = alias;"]
          (run [])))).imports "goog.dom" = none :=
  c2_first_claim_ownership [] "a" "b"
    ["declare module 'goog:goog.dom'", "export = alias;"]
    ["declare module 'goog:goog.dom'", "export = alias;"]
    "goog.dom" (ImportInfo.mk "dom" "goog.dom" true "a")
    (by decide) (by decide) rfl (by decide)

/-- The suggestion record as claim C5 words it: the display label, the
detail string, the aggregate-vs-default category, one text edit inserting
`import <* as ><name> from 'goog:<namespace>';\n` at line 0 column 0, and
the dot commit character. -/
def specItem (i : ImportInfo) : CompletionItem :=
  { label := i.name,
    detail := "Auto import " ++ i.«namespace»,
    kind := if i.module then CompletionItemKind.Module
      else CompletionItemKind.Class,
    additionalTextEdits := [⟨⟨⟨0, 0⟩, ⟨0, 0⟩⟩,
      "import " ++ (if i.module then "* as " else "") ++ i.name ++
        " from 'goog:" ++ i.«namespace» ++ "';\n"⟩],
    commitCharacters := ["."] }

/-- C5: on a cache miss, `getCompletions` produces exactly one suggestion
per `ImportInfo` of the index — each with a single insert edit at line 0
column 0 whose text is exactly the import statement — and appends the fixed
fallback entry set exactly when the index has no entry for
`goog.ui.Component`. -/
theorem c5_completion_shape (prebaked : List ImportInfo) (s : DB)
    (h : s.completions = none) :
    (getCompletions prebaked s).1 =
      (avalues s.imports ++
        (if aget s.imports "goog.ui.Component" = none then prebaked
         else [])).map specItem := by
  have hfor : itemFor = specItem := funext fun i => rfl
  simp only [getCompletions, h]
  cases hg : aget s.imports "goog.ui.Component" with
  | none => simp [hg, hfor]
  | some info => simp [hg, hfor]

theorem c5_witness :
    (getCompletions [ImportInfo.mk "Component" "goog.ui.Component" false "x"]
      emptyDB).1 =
      (avalues emptyDB.imports ++
        (if aget emptyDB.imports "goog.ui.Component" = none then
          [ImportInfo.mk "Component" "goog.ui.Component" false "x"]
         else [])).map specItem :=
  c5_completion_shape [ImportInfo.mk "Component" "goog.ui.Component" false "x"]
    emptyDB rfl

/-- C7: a namespace starting with a blacklisted prefix is never stored and
never arms a skip-run — the handler leaves the forward map and the found
list untouched, clears the active namespace (so marker lines that follow
add nothing), and leaves the skip prefix either unchanged or cleared; and
concretely a file declaring `goog.i18n.DateTimeSymbols.foo` with export
markers yields no index entry for it. -/
theorem c7_blacklist_suppression :
    (∀ path line ns : String, ∀ st : ScanSt, declMatch line = some ns →
      wildcardBlacklists.any (fun q => strStarts ns q) = true →
      (scanStep path st line).imports = st.imports ∧
      (scanStep path st line).found = st.found ∧
      (scanStep path st line).«namespace» = "" ∧
      ((scanStep path st line).skip = st.skip ∨
        (scanStep path st line).skip = "")) ∧
    aget (scanFile "f" ["declare module 'goog:goog.i18n.DateTimeSymbols.foo'",
      "export = alias;", "export default alias;"] emptyDB).imports
      "goog.i18n.DateTimeSymbols.foo" = none := by
  refine ⟨?_, by decide⟩
  intro path line ns st hd hbl
  simp only [scanStep, hd]
  split_ifs with h1
  · exact ⟨rfl, rfl, rfl, Or.inl rfl⟩
  · exact ⟨rfl, rfl, rfl, Or.inr rfl⟩

theorem c7_witness :
    (scanStep "f" ⟨"", "", "", ["goog.dom"], []⟩
        "declare module 'goog:goog.i18n.DateTimePatterns.x'").imports = [] ∧
    (scanStep "f" ⟨"", "", "", ["goog.dom"], []⟩
        "declare module 'goog:goog.i18n.DateTimePatterns.x'").found =
      ["goog.dom"] ∧
    (scanStep "f" ⟨"", "", "", ["goog.dom"], []⟩
        "declare module 'goog:goog.i18n.DateTimePatterns.x'").«namespace» =
      "" ∧
    ((scanStep "f" ⟨"", "", "", ["goog.dom"], []⟩
        "declare module 'goog:goog.i18n.DateTimePatterns.x'").skip = "" ∨
      (scanStep "f" ⟨"", "", "", ["goog.dom"], []⟩
        "declare module 'goog:goog.i18n.DateTimePatterns.x'").skip = "") :=
  c7_blacklist_suppression.1 "f"
    "declare module 'goog:goog.i18n.DateTimePatterns.x'"
    "goog.i18n.DateTimePatterns.x" ⟨"", "", "", ["goog.dom"], []⟩
    (by decide) (by decide)

/-- C8: cache behavior of `getCompletions` — a populated cache is returned
as-is with no state change (so two consecutive calls agree and the second
changes nothing), and a scan that finds at least one new namespace unsets
the cache. -/
theorem c8_cache_behavior :
    (∀ prebaked : List ImportInfo, ∀ s : DB, ∀ cs : List CompletionItem,
      s.completions = some cs → getCompletions prebaked s = (cs, s)) ∧
    (∀ prebaked : List ImportInfo, ∀ s : DB,
      getCompletions prebaked ((getCompletions prebaked s).2) =
        ((getCompletions prebaked s).1, (getCompletions prebaked s).2)) ∧
    (∀ p : String, ∀ L : List String, ∀ s : DB,
      (scanSt p L (removeFile p s).imports).found ≠ [] →
      (scanFile p L s).completions = none) := by
  refine ⟨?_, ?_, ?_⟩
  · intro pb s cs h
    simp [getCompletions, h]
  · intro pb s
    cases hm : s.completions with
    | some cs => simp [getCompletions, hm]
    | none => simp [getCompletions, hm]
  · intro p L s h
    have hc : ¬ ((scanSt p L (removeFile p s).imports).found.isEmpty = true) := by
      simpa [List.isEmpty_iff] using h
    rw [scanFile_eq, if_neg hc]

theorem c8_witness :
    getCompletions [] (DB.mk [] [] (some [])) = ([], DB.mk [] [] (some [])) :=
  c8_cache_behavior.1 [] (DB.mk [] [] (some [])) [] rfl

/-- C4: during a scan, a captured namespace is checked in order — armed
skip-run continuation first (discard, skip kept, when it extends the armed
prefix; otherwise the skip-run is cleared and processing continues), then
the blacklist, then the deprecated set (which arms the skip-run with the
namespace plus a trailing dot); concretely, of `goog.ui.TabPane`,
`goog.ui.TabPane.Events`, `goog.ui.Button` in that order, only
`goog.ui.Button` is indexed. -/
theorem c4_filter_order :
    (∀ path line ns : String, ∀ st : ScanSt, declMatch line = some ns →
      st.skip ≠ "" → strStarts ns st.skip = true →
      scanStep path st line = { st with «namespace» := "" }) ∧
    (∀ path line ns : String, ∀ st : ScanSt, declMatch line = some ns →
      (st.skip = "" ∨ strStarts ns st.skip = false) →
      wildcardBlacklists.any (fun q => strStarts ns q) = true →
      scanStep path st line = { st with «namespace» := "", skip := "" }) ∧
    (∀ path line ns : String, ∀ st : ScanSt, declMatch line = some ns →
      (st.skip = "" ∨ strStarts ns st.skip = false) →
      wildcardBlacklists.any (fun q => strStarts ns q) = false →
      deprecated.contains ns = true →
      scanStep path st line =
        { st with «namespace» := "", skip := ns ++ "." }) ∧
    (scanSt "f" ["declare module 'goog:goog.ui.TabPane'", "export = alias;",
      "declare module 'goog:goog.ui.TabPane.Events'", "export = alias;",
      "declare module 'goog:goog.ui.Button'", "export = alias;"] []).found =
      ["goog.ui.Button"] := by
  refine ⟨?_, ?_, ?_, by decide⟩
  · intro path line ns st hd hne hstarts
    have hguard : (decide (st.skip ≠ "") && strStarts ns st.skip) = true := by
      simp [hne, hstarts]
    simp only [scanStep, hd]
    rw [if_pos hguard]
  · intro path line ns st hd hnotskip hbl
    have hguard : ¬ ((decide (st.skip ≠ "") && strStarts ns st.skip) = true) := by
      rcases hnotskip with h | h <;> simp [h]
    simp only [scanStep, hd]
    rw [if_neg hguard, if_pos hbl]
  · intro path line ns st hd hnotskip hbl hdep
    have hguard : ¬ ((decide (st.skip ≠ "") && strStarts ns st.skip) = true) := by
      rcases hnotskip with h | h <;> simp [h]
    have hbl' : ¬ ((wildcardBlacklists.any fun q => strStarts ns q) = true) := by
      simp [hbl]
    simp only [scanStep, hd]
    rw [if_neg hguard, if_neg hbl', if_pos hdep]

theorem c4_witness :
    scanStep "f" ⟨"", "", "goog.ui.TabPane.", [], []⟩
        "declare module 'goog:goog.ui.TabPane.Events'" =
      ⟨"", "", "goog.ui.TabPane.", [], []⟩ ∧
    scanStep "f" ⟨"", "", "goog.ui.TabPane.", [], []⟩
        "declare module 'goog:goog.i18n.DateTimeSymbols'" =
      ⟨"", "", "", [], []⟩ ∧
    scanStep "f" ⟨"", "", "", [], []⟩
        "declare module 'goog:goog.graphics'" =
      ⟨"", "", "goog.graphics.", [], []⟩ :=
  ⟨c4_filter_order.1 "f" "declare module 'goog:goog.ui.TabPane.Events'"
      "goog.ui.TabPane.Events" ⟨"", "", "goog.ui.TabPane.", [], []⟩
      (by decide) (by decide) (by decide),
   c4_filter_order.2.1 "f" "declare module 'goog:goog.i18n.DateTimeSymbols'"
      "goog.i18n.DateTimeSymbols" ⟨"", "", "goog.ui.TabPane.", [], []⟩
      (by decide) (Or.inr (by decide)) (by decide),
   c4_filter_order.2.2.1 "f" "declare module 'goog:goog.graphics'"
      "goog.graphics" ⟨"", "", "", [], []⟩
      (by decide) (Or.inl rfl) (by decide) (by decide)⟩

/-- C6: rescan identity — scanning a path a second time over identical
lines first removes and then re-adds its contribution, so the
reverse-mapping row for that path (the set of namespaces sourced from it)
is the same as after the first scan. -/
theorem c6_rescan_identity (s : DB) (p : String) (L : List String) :
    aget (scanFile p L (scanFile p L s)).files p =
      aget (scanFile p L s).files p := by
  obtain ⟨F1, F2, F3⟩ := foldInv_scanSt p (removeFile p s).imports L
  by_cases hfe : (scanSt p L (removeFile p s).imports).found.isEmpty
  · have hs1 : scanFile p L s =
        DB.mk (scanSt p L (removeFile p s).imports).imports
          (removeFile p s).files (removeFile p s).completions := by
      rw [scanFile_eq, if_pos hfe]
    have hfiles1 : aget (scanFile p L s).files p = none := by
      rw [hs1]
      exact removeFile_files_self p s
    have hrm : removeFile p (scanFile p L s) = scanFile p L s :=
      removeFile_none p _ hfiles1
    have hnil : (scanSt p L (removeFile p s).imports).found = [] :=
      List.isEmpty_iff.mp hfe
    have hgeq : ∀ n, aget (removeFile p (scanFile p L s)).imports n =
        aget (removeFile p s).imports n := by
      intro n
      rw [hrm, hs1]
      exact F1 n (by rw [hnil]; exact List.not_mem_nil n)
    have hfound2 :
        (scanSt p L (removeFile p (scanFile p L s)).imports).found =
          (scanSt p L (removeFile p s).imports).found :=
      scanSt_found_congr p L _ _ hgeq
    rw [scanFile_eq p L (scanFile p L s), hfound2, if_pos hfe]
    show aget (removeFile p (scanFile p L s)).files p =
      aget (scanFile p L s).files p
    rw [hrm]
  · have hs1 : scanFile p L s =
        DB.mk (scanSt p L (removeFile p s).imports).imports
          (aset (removeFile p s).files p
            (scanSt p L (removeFile p s).imports).found) none := by
      rw [scanFile_eq, if_neg hfe]
    have hfiles1 : aget (scanFile p L s).files p =
        some (scanSt p L (removeFile p s).imports).found := by
      rw [hs1]
      exact aget_set_self (removeFile p s).files p _
    have hrm := removeFile_some p (scanFile p L s) _ hfiles1
    have hgeq : ∀ n, aget (removeFile p (scanFile p L s)).imports n =
        aget (removeFile p s).imports n := by
      intro n
      rw [hrm]
      show aget ((scanSt p L (removeFile p s).imports).found.foldl
        (fun acc k => adel acc k) (scanFile p L s).imports) n =
        aget (removeFile p s).imports n
      rw [scanFile_imports p L s, aget_delAll]
      by_cases hn : n ∈ (scanSt p L (removeFile p s).imports).found
      · rw [if_pos hn, F3 n hn]
      · rw [if_neg hn]
        exact F1 n hn
    have hfound2 :
        (scanSt p L (removeFile p (scanFile p L s)).imports).found =
          (scanSt p L (removeFile p s).imports).found :=
      scanSt_found_congr p L _ _ hgeq
    rw [scanFile_eq p L (scanFile p L s), hfound2, if_neg hfe]
    show aget (aset (removeFile p (scanFile p L s)).files p
      (scanSt p L (removeFile p s).imports).found) p =
      aget (scanFile p L s).files p
    rw [aget_set_self, hfiles1]
